import Mathlib

/-!
Verification of the Dragon4 number-to-string conversion core of
src/duk_numconv.c.

The development embeds the conversion pipeline at two levels:

* a limb-level view of the bigint produced by dragon4_convert_double,
  needed to talk about the normalization invariant (length 0 or top limb
  nonzero);
* a value-level view of the rest of the pipeline, where each duk_bigint
  is represented by the non-negative integer it denotes and every bigint
  operation (bi_add, bi_sub, bi_mul, bi_mul_small, bi_compare) is the
  corresponding operation on naturals.  This is faithful because all the
  bigint operations implement exact arithmetic on the denoted values.

Loops of the C source become fuel-indexed recursive functions returning
none when the fuel runs out; a C loop that would not terminate is modelled
by the function returning none for every fuel.
-/

set_option maxRecDepth 10000

namespace DukNumconv

/-- A duk_bigint at limb level: the length field n and the little-endian
32-bit limb array v (only the first n entries are meaningful). -/
structure DukBigint where
  n : ℕ
  v : List ℕ
deriving DecidableEq, Repr

/-- bi_is_normalized from the source: the length is zero, or the top limb
(v[n-1]) is nonzero. -/
def bi_is_normalized (x : DukBigint) : Bool :=
  x.n == 0 || x.v.getD (x.n - 1) 0 != 0

/-- The non-negative integer denoted by a duk_bigint (little-endian base
2^32 digits, first n limbs). -/
def biVal (x : DukBigint) : ℕ :=
  (x.v.take x.n).foldr (fun a acc => a + acc * 2 ^ 32) 0

/-- dragon4_convert_double from the source, at bit level.  Input: the low
and high 32-bit halves of the IEEE-754 bit pattern of the (already made
non-negative) double.  The code sets f.n = 2, stores the low fraction word
in v[0] and the masked high fraction bits in v[1], adds the hidden bit for
normal values, and computes the binary exponent e.  The source does not
normalize f afterwards. -/
def dragon4_convert_double (v0 v1 : ℕ) : DukBigint × ℤ :=
  let f0 := v0
  let f1 := v1 % 2 ^ 20
  let expf : ℕ := (v1 / 2 ^ 20) % 2 ^ 11
  if expf = 0 then
    (⟨2, [f0, f1]⟩, -1022 - 52)
  else
    (⟨2, [f0, f1 + 2 ^ 20]⟩, (expf : ℤ) - 1023 - 52)

/-- bi_is_even at value level: the value is even (length 0, or low bit of
v[0] clear). -/
def bi_is_even (f : ℕ) : Bool := f % 2 == 0

/-- bi_is_2to52 at value level: the limb test (n = 2, v[0] = 0,
v[1] = 1 <<< 20) holds exactly when the denoted value is 2^52. -/
def bi_is_2to52 (f : ℕ) : Bool := f == 2 ^ 52

/-- The low_ok and high_ok flags set at the top of dragon4_prepare: both
are 1 when f is even and 0 when f is odd (IEEE round-to-even). -/
def prepare_round_ok (f : ℕ) : Bool := bi_is_even f

/-- dragon4_prepare from the source, at value level.  Returns
(r, s, m+, m-).  IEEE_DOUBLE_EXP_MIN is -1022 in the source and the
negative-exponent branch compares e against it directly
(e > IEEE_DOUBLE_EXP_MIN && bi_is_2to52(f)). -/
def dragon4_prepare (f : ℕ) (e : ℤ) : ℕ × ℕ × ℕ × ℕ :=
  if 0 ≤ e then
    if bi_is_2to52 f then
      (f * 2 ^ (e + 2).toNat, 4, 2 ^ (e + 1).toNat, 2 ^ e.toNat)
    else
      (f * 2 ^ (e + 1).toNat, 2, 2 ^ e.toNat, 2 ^ e.toNat)
  else
    if decide (-1022 < e) && bi_is_2to52 f then
      (f * 4, 2 ^ (2 - e).toNat, 2, 1)
    else
      (f * 2, 2 ^ (1 - e).toNat, 1, 1)

/-- Loop condition of the first (increment k) scale loop:
bi_compare(r + m+, s) >= (high_ok ? 0 : 1), with t = r + m+. -/
def scale_up_cond (high_ok : Bool) (t s : ℕ) : Bool :=
  if high_ok then decide (s ≤ t) else decide (s + 1 ≤ t)

/-- Loop condition of the second (decrement k) scale loop:
bi_compare((r + m+) * B, s) <= (high_ok ? -1 : 0), with t2 = (r + m+) * B. -/
def scale_down_cond (high_ok : Bool) (t2 s : ℕ) : Bool :=
  if high_ok then decide (t2 + 1 ≤ s) else decide (t2 ≤ s)

/-- First scale loop.  Only s and k change; r + m+ is passed as the fixed
value rmp.  Fuel-indexed; none models running out of fuel. -/
def scale_up (B : ℕ) (high_ok : Bool) (rmp : ℕ) : ℕ → ℕ → ℕ → Option (ℕ × ℕ)
  | 0, _, _ => none
  | fuel + 1, s, k =>
    if scale_up_cond high_ok rmp s then scale_up B high_ok rmp fuel (s * B) (k + 1)
    else some (s, k)

/-- Second scale loop.  s is fixed; r, m+, m- are multiplied by B and k is
decremented each iteration. -/
def scale_down (B : ℕ) (high_ok : Bool) (s : ℕ) :
    ℕ → ℕ → ℕ → ℕ → ℤ → Option (ℕ × ℕ × ℕ × ℤ)
  | 0, _, _, _, _ => none
  | fuel + 1, r, mp, mm, k =>
    if scale_down_cond high_ok ((r + mp) * B) s then
      scale_down B high_ok s fuel (r * B) (mp * B) (mm * B) (k - 1)
    else some (r, mp, mm, k)

/-- dragon4_scale from the source: run the increment loop from k = 0; if it
ended with k > 0 the decrement loop is skipped (goto skip_dec_k), otherwise
run the decrement loop.  Returns the final (r, s, m+, m-, k). -/
def dragon4_scale (B : ℕ) (high_ok : Bool) (fu fd : ℕ) (r s mp mm : ℕ) :
    Option (ℕ × ℕ × ℕ × ℕ × ℤ) :=
  match scale_up B high_ok (r + mp) fu s 0 with
  | none => none
  | some (s1, k1) =>
    if 0 < k1 then some (r, s1, mp, mm, (k1 : ℤ))
    else
      match scale_down B high_ok s1 fd r mp mm 0 with
      | none => none
      | some (r1, mp1, mm1, k) => some (r1, s1, mp1, mm1, k)

/-- The quotient-remainder dummy subtraction loop of dragon4_generate:
subtract s from t1 while t1 >= s, counting in d.  The C loop performs
exactly t1 / s subtractions plus a final comparison when s > 0, so it is
run here with fuel t1 / s + 1, which is exactly enough; for s = 0 the
C loop does not terminate and the fuel runs out (none). -/
def divloop (s : ℕ) : ℕ → ℕ → ℕ → Option (ℕ × ℕ)
  | 0, _, _ => none
  | fuel + 1, t1, d =>
    if t1 < s then some (d, t1)
    else divloop s fuel (t1 - s) (d + 1)

/-- Lower termination predicate of dragon4_generate:
tc1 = bi_compare(r, m-) <= (low_ok ? 0 : -1), evaluated after r has been
replaced by the remainder and m- has been multiplied by B. -/
def generate_tc1 (low_ok : Bool) (r mm : ℕ) : Bool :=
  if low_ok then decide (r ≤ mm) else decide (r + 1 ≤ mm)

/-- Upper termination predicate of dragon4_generate as the source actually
computes it.  The C code reads
bi_compare(t1, s) >= (&nc_ctx->high_ok ? 0 : 1): the condition of the
ternary operator is the address of the high_ok field, which is never null,
so the threshold is 0 regardless of the value of high_ok.  The high_ok
argument is therefore ignored here, exactly as in the compiled code. -/
def generate_tc2 (high_ok : Bool) (r mp s : ℕ) : Bool :=
  decide (s ≤ r + mp)

/-- The upper termination predicate as the claim states it: the threshold
is 0 when high_ok is set and 1 when it is clear.  This definition follows
the words of the spec and exists only to be compared with generate_tc2. -/
def tc2_claim (high_ok : Bool) (r mp s : ℕ) : Bool :=
  if high_ok then decide (s ≤ r + mp) else decide (s + 1 ≤ r + mp)

/-- dragon4_generate from the source, returning the list of digit indices
passed to dragon4_output, in emission order.  Per iteration: divide r * B
by s by repeated subtraction giving digit d and new remainder r, multiply
m+ and m- by B, evaluate tc1 and tc2, then emit and stop or continue as the
four-way branch in the source does (the tie case emits d when 2r < s and
d + 1 otherwise). -/
def dragon4_generate (B : ℕ) (low_ok high_ok : Bool) (s : ℕ) :
    ℕ → ℕ → ℕ → ℕ → Option (List ℕ)
  | 0, _, _, _ => none
  | fuel + 1, r, mp, mm =>
    match divloop s (r * B / s + 1) (r * B) 0 with
    | none => none
    | some (d, r1) =>
      let mp1 := mp * B
      let mm1 := mm * B
      if generate_tc1 low_ok r1 mm1 then
        if generate_tc2 high_ok r1 mp1 s then
          if 2 * r1 < s then some [d] else some [d + 1]
        else some [d]
      else
        if generate_tc2 high_ok r1 mp1 s then some [d + 1]
        else
          match dragon4_generate B low_ok high_ok s fuel r1 mp1 mm1 with
          | none => none
          | some ds => some (d :: ds)

/-- The scale and generate parts composed, as driven by the dispatcher:
returns the emitted digit list together with the scale result k. -/
def dragon4_digits (B : ℕ) (low_ok high_ok : Bool) (r s mp mm : ℕ)
    (fu fd fg : ℕ) : Option (List ℕ × ℤ) :=
  match dragon4_scale B high_ok fu fd r s mp mm with
  | none => none
  | some (r1, s1, mp1, mm1, k) =>
    match dragon4_generate B low_ok high_ok s1 fg r1 mp1 mm1 with
    | none => none
    | some ds => some (ds, k)

/-- The 36-entry digit symbol table from the source (the source writes
the character array out literally; the list here is the same 36
characters). -/
def digits_table : List Char :=
  "0123456789abcdefghijklmnopqrstuvwxyz".toList

/-- digits[d].  An index past the end of the table (the d = 36 rounding
corner noted in the source spec) is an out-of-bounds read in C; the
embedding returns a placeholder character there. -/
def digitChar (d : ℕ) : Char := digits_table.getD d '?'

/-- dragon4_output from the source, mapped over the digit list: for each
digit d at zero-based index n, with pos = k - n, write the leading
"0." and -k padding zeros when pos <= 0 and no digit has been written yet,
or a lone "." when pos = 0, then the digit character. -/
def dragon4_output (k : ℤ) : List ℕ → ℕ → Bool → List Char
  | [], _, _ => []
  | d :: ds, n, first =>
    let pos : ℤ := k - n
    (if pos ≤ 0 ∧ first then
       '0' :: '.' :: List.replicate (-k).toNat '0'
     else if pos = 0 then ['.']
     else [])
    ++ digitChar d :: dragon4_output k ds (n + 1) false

/-- dragon4_finish from the source: when k >= 1, pad with k - n zeros
(n = number of digits emitted) so the implicit decimal point lands
correctly. -/
def dragon4_finish (k : ℤ) (n : ℕ) : List Char :=
  if 1 ≤ k then List.replicate (k - n).toNat '0' else []

/-- Digit stream formatting as performed by generate + finish. -/
def format_digits (k : ℤ) (ds : List ℕ) : List Char :=
  dragon4_output k ds 0 true ++ dragon4_finish k ds.length

/-- An IEEE-754 double given by its fields: sign bit, 11-bit biased
exponent field, 52-bit fraction field. -/
structure DoubleRep where
  sign : Bool
  expf : ℕ
  frac : ℕ
deriving DecidableEq, Repr

/-- fpclassify(x) == FP_NAN. -/
def isNaN (x : DoubleRep) : Bool := x.expf == 2047 && x.frac != 0

/-- fpclassify(x) == FP_INFINITE. -/
def isInf (x : DoubleRep) : Bool := x.expf == 2047 && x.frac == 0

/-- fpclassify(x) == FP_ZERO. -/
def isZero (x : DoubleRep) : Bool := x.expf == 0 && x.frac == 0

/-- Exact rational value of the absolute value of a finite double. -/
def absValue (x : DoubleRep) : ℚ :=
  if x.expf = 0 then (x.frac : ℚ) * (2 : ℚ) ^ (-1074 : ℤ)
  else ((2 ^ 52 + x.frac : ℕ) : ℚ) * (2 : ℚ) ^ ((x.expf : ℤ) - 1075)

/-- Low 32-bit half of the bit pattern of |x|. -/
def absBitsLo (x : DoubleRep) : ℕ := x.frac % 2 ^ 32

/-- High 32-bit half of the bit pattern of |x| (sign bit cleared, as the
dispatcher negates x before running the conversion). -/
def absBitsHi (x : DoubleRep) : ℕ := x.expf * 2 ^ 20 + x.frac / 2 ^ 32

/-- Modelled from the spec: the reserved literals NaN, Infinity, -Infinity
and 0 are obtained from a collaborator string table (external to this
repository); the spec gives their contents. -/
def lit_nan : List Char := ['N', 'a', 'N']

/-- Modelled from the spec: the Infinity literal of the string table. -/
def lit_infinity : List Char := ['I', 'n', 'f', 'i', 'n', 'i', 't', 'y']

/-- Modelled from the spec: the -Infinity literal of the string table. -/
def lit_minus_infinity : List Char := '-' :: lit_infinity

/-- Modelled from the spec: the 0 literal of the string table. -/
def lit_zero : List Char := ['0']

/-- Modelled from the spec: duk_push_sprintf with format %u (libc,
external to this repository) renders an unsigned integer in standard
decimal notation. -/
def uintDecimal (n : ℕ) : List Char := Nat.toDigits 10 n

/-- duk_numconv_stringify from the source: classify and handle the special
values, then try the radix-10 unsigned-integer fast path ((unsigned) x
casts by truncation, defined when |x| < 2^32; the guard compares the cast
result converted back to double against |x|, which holds exactly when |x|
is an integer below 2^32), and otherwise run decompose, prepare, scale and
generate and format the digit stream with an optional leading minus.
The C computes neg from x < 0, which on every path where neg is read
(non-NaN, non-zero) agrees with the sign bit. -/
def duk_numconv_stringify (x : DoubleRep) (radix : ℕ) (fu fd fg : ℕ) :
    Option (List Char) :=
  let neg := x.sign
  if isNaN x then some lit_nan
  else if isInf x then some (if neg then lit_minus_infinity else lit_infinity)
  else if isZero x then some lit_zero
  else
    let xa := absValue x
    if radix = 10 ∧ (⌊xa⌋ : ℚ) = xa ∧ ⌊xa⌋ < 2 ^ 32 then
      some ((if neg then ['-'] else []) ++ uintDecimal ⌊xa⌋.toNat)
    else
      let fe := dragon4_convert_double (absBitsLo x) (absBitsHi x)
      let f := biVal fe.1
      let ro := prepare_round_ok f
      match dragon4_prepare f fe.2 with
      | (r, s, mp, mm) =>
        match dragon4_digits radix ro ro r s mp mm fu fd fg with
        | none => none
        | some (ds, k) =>
          some ((if neg then ['-'] else []) ++ format_digits k ds)

/-!  Helper lemmas about the subtraction division loop and generate. -/

lemma divloop_eq (s : ℕ) (hs : 0 < s) :
    ∀ (fu t1 d : ℕ), t1 / s < fu →
      divloop s fu t1 d = some (d + t1 / s, t1 % s) := by
  intro fu
  induction fu with
  | zero => intro t1 d h; exact absurd h (Nat.not_lt_zero _)
  | succ n ih =>
    intro t1 d h
    rw [divloop]
    by_cases hlt : t1 < s
    · rw [if_pos hlt, Nat.div_eq_of_lt hlt, Nat.mod_eq_of_lt hlt, Nat.add_zero]
    · rw [if_neg hlt]
      push_neg at hlt
      have hd : t1 / s = (t1 - s) / s + 1 := Nat.div_eq_sub_div hs hlt
      have hm : t1 % s = (t1 - s) % s := Nat.mod_eq_sub_mod hlt
      rw [ih (t1 - s) (d + 1) (by omega), hd, hm]
      have : d + 1 + (t1 - s) / s = d + ((t1 - s) / s + 1) := by omega
      rw [this]

lemma dragon4_generate_succ (B : ℕ) (lo ho : Bool) (s : ℕ) (hs : 0 < s)
    (fuel r mp mm : ℕ) :
    dragon4_generate B lo ho s (fuel + 1) r mp mm =
      (if generate_tc1 lo (r * B % s) (mm * B) then
         if generate_tc2 ho (r * B % s) (mp * B) s then
           if 2 * (r * B % s) < s then some [r * B / s] else some [r * B / s + 1]
         else some [r * B / s]
       else
         if generate_tc2 ho (r * B % s) (mp * B) s then some [r * B / s + 1]
         else
           match dragon4_generate B lo ho s fuel (r * B % s) (mp * B) (mm * B) with
           | none => none
           | some ds => some (r * B / s :: ds)) := by
  rw [dragon4_generate, divloop_eq s hs _ _ _ (Nat.lt_succ_self _), Nat.zero_add]

lemma generate_ne_nil (B : ℕ) (lo ho : Bool) (s fg r mp mm : ℕ)
    (ds : List ℕ) (h : dragon4_generate B lo ho s fg r mp mm = some ds) :
    ds ≠ [] := by
  cases fg with
  | zero => simp [dragon4_generate] at h
  | succ n =>
    rw [dragon4_generate] at h
    rcases hdl : divloop s (r * B / s + 1) (r * B) 0 with _ | ⟨d, r1⟩ <;>
      rw [hdl] at h
    · simp at h
    · simp only at h
      split at h
      · split at h
        · split at h <;> (injection h with h; subst h; simp)
        · injection h with h; subst h; simp
      · split at h
        · injection h with h; subst h; simp
        · rcases hrec : dragon4_generate B lo ho s n r1 (mp * B) (mm * B) with
            _ | ds1 <;> rw [hrec] at h
          · cases h
          · injection h with h; subst h; simp

/-- C6: every digit index passed to the output emitter by Generate lies in
[0, B] (digits are naturals, so the lower bound is automatic): every
member of the emitted digit list is at most B, and every member except
possibly the last is at most B - 1 (only the final digit may have been
incremented from d to d + 1).  The hypotheses 0 < s and r < s are the
state Generate is entered with after Scale. -/
theorem generate_digit_range (B : ℕ) (lo ho : Bool) (s fg r mp mm : ℕ)
    (ds : List ℕ) (hB : 2 ≤ B) (hs : 0 < s) (hr : r < s)
    (h : dragon4_generate B lo ho s fg r mp mm = some ds) :
    (∀ d ∈ ds, d ≤ B) ∧ (∀ d ∈ ds.dropLast, d + 1 ≤ B) := by
  induction fg generalizing r mp mm ds with
  | zero => simp [dragon4_generate] at h
  | succ n ih =>
    rw [dragon4_generate_succ B lo ho s hs] at h
    have hdB : r * B / s + 1 ≤ B := by
      have h1 : r * B < B * s := by
        calc r * B < s * B := Nat.mul_lt_mul_of_pos_right hr (by omega)
        _ = B * s := Nat.mul_comm s B
      have := (Nat.div_lt_iff_lt_mul hs).2 h1
      omega
    have hr1 : r * B % s < s := Nat.mod_lt _ hs
    split at h
    · split at h
      · split at h <;> (injection h with h; subst h; constructor <;> simp <;> omega)
      · injection h with h; subst h
        constructor <;> simp <;> omega
    · split at h
      · injection h with h; subst h
        constructor <;> simp <;> omega
      · rcases hrec : dragon4_generate B lo ho s n (r * B % s) (mp * B) (mm * B)
          with _ | ds1 <;> rw [hrec] at h
        · cases h
        · injection h with h; subst h
          obtain ⟨ih1, ih2⟩ := ih (r * B % s) (mp * B) (mm * B) ds1 hr1 hrec
          have hne := generate_ne_nil B lo ho s n (r * B % s) (mp * B) (mm * B) ds1 hrec
          constructor
          · intro d hd
            rcases List.mem_cons.1 hd with h1 | h1
            · omega
            · exact ih1 d h1
          · rcases ds1 with _ | ⟨a, tl⟩
            · exact absurd rfl hne
            · rw [List.dropLast_cons₂]
              intro d hd
              rcases List.mem_cons.1 hd with h1 | h1
              · omega
              · exact ih2 d h1

/-- C6 witness: a concrete run (B = 10, s = 7, r = 3) emitting the digit
list [4], at which the range theorem is instantiated. -/
theorem generate_digit_range_witness :
    (2 ≤ 10 ∧ 0 < 7 ∧ 3 < 7 ∧
      dragon4_generate 10 true true 7 10 3 1 1 = some [4]) ∧
    ((∀ d ∈ ([4] : List ℕ), d ≤ 10) ∧
      (∀ d ∈ ([4] : List ℕ).dropLast, d + 1 ≤ 10)) :=
  ⟨⟨by decide, by decide, by decide, by decide⟩,
    generate_digit_range 10 true true 7 10 3 1 1 [4] (by decide) (by decide)
      (by decide) (by decide)⟩

/-- C10: Generate emits at least one digit before terminating: whenever
the generate loop completes, the emitted digit list is nonempty, and the
formatted digit stream (the part of the output string after the optional
leading minus) is a nonempty character sequence. -/
theorem generate_emits_at_least_one_digit (B : ℕ) (lo ho : Bool)
    (s fg r mp mm : ℕ) (k : ℤ) (ds : List ℕ)
    (h : dragon4_generate B lo ho s fg r mp mm = some ds) :
    ds ≠ [] ∧ format_digits k ds ≠ [] := by
  have hne := generate_ne_nil B lo ho s fg r mp mm ds h
  refine ⟨hne, ?_⟩
  rcases ds with _ | ⟨d, tl⟩
  · exact absurd rfl hne
  · simp [format_digits, dragon4_output]

/-- C10 witness: a concrete run (B = 2, s = 3, r = 1) emitting [1], with
formatted output "0.1". -/
theorem generate_emits_at_least_one_digit_witness :
    dragon4_generate 2 true true 3 5 1 1 1 = some [1] ∧
    ([1] : List ℕ) ≠ [] ∧ format_digits 0 [1] ≠ [] :=
  ⟨by decide, generate_emits_at_least_one_digit 2 true true 3 5 1 1 1 0 [1]
    (by decide)⟩

/-!  Evaluation theorems for the divergences between the claims and the
source (the address-based tc2 threshold, the setup case boundary, the
missing normalization of f, and the first generated digit reaching B). -/

/-- C1: the upper termination predicate of Generate does not follow the
high_ok flag: the source compares against the address of the flag, so the
threshold is 0 even when high_ok is false.  At the state r = 1, m+ = 1,
s = 2 with high_ok false (reached, e.g., in the first generate iteration
for x = 11398895185373142.0 at radix 7 up to a common factor), the code
computes tc2 = true while the claimed predicate (threshold 1 for
high_ok = false) is false. -/
theorem tc2_threshold_address_bug :
    generate_tc2 false 1 1 2 = true ∧ tc2_claim false 1 1 2 = false := by
  constructor <;> decide

/-- C2: for f = 2^52 and e = -1073 (the double 2^(-1021), a normal number
above the minimum exponent with the lowest mantissa), the claim says setup
selects the unequal-gaps case (r = f*4, s = 2^(2-e) = 2^1075, m+ = 2,
m- = 1), but the source compares e against IEEE_DOUBLE_EXP_MIN = -1022
instead of -1074 and therefore selects the equal-gaps case
(r = f*2 = 2^53, s = 2^(1-e) = 2^1074, m+ = 1, m- = 1). -/
theorem prepare_case_boundary_bug :
    dragon4_prepare (2 ^ 52) (-1073) = (2 ^ 53, 2 ^ 1074, 1, 1) ∧
    (2 ^ 53, 2 ^ 1074, 1, (1 : ℕ)) ≠ (2 ^ 52 * 4, 2 ^ 1075, 2, 1) := by
  constructor <;> decide

/-- C3: for the smallest positive denormal 5e-324 (bit pattern halves
v0 = 1, v1 = 0), dragon4_convert_double leaves f with length 2 and top
limb 0, so f is not normalized, contrary to the claim (the debug build
would fail the bi_is_normalized assertion when dragon4_prepare calls
bi_is_even on f). -/
theorem convert_double_normalization_bug :
    dragon4_convert_double 1 0 = (⟨2, [1, 0]⟩, -1074) ∧
    bi_is_normalized ⟨2, [1, 0]⟩ = false := by
  constructor <;> decide

/-- C5: for the input x = 11398895185373142.0 = 7^19 - 1 (bit pattern
halves v0 = 221090795, v1 = 1128546206, so f = 5699447592686571 odd and
e = 1, giving low_ok = high_ok = 0) at radix B = 7, Scale ends with
r + m+ = s exactly (k = 19), and the first digit produced by Generate is
d + 1 = 7 = B, outside [1, B-1]: the address-based tc2 threshold fires on
the boundary that the value-based threshold would reject.  The full
dispatcher output is "7" followed by 18 zeros, which in base 7 is
7^19, not x. -/
theorem generate_first_digit_radix_bug :
    biVal (dragon4_convert_double 221090795 1128546206).1 = 5699447592686571 ∧
    (dragon4_convert_double 221090795 1128546206).2 = 1 ∧
    prepare_round_ok 5699447592686571 = false ∧
    dragon4_prepare 5699447592686571 1 = (22797790370746284, 2, 2, 2) ∧
    dragon4_digits 7 false false 22797790370746284 2 2 2 25 5 5 =
      some ([7], 19) ∧
    duk_numconv_stringify ⟨false, 1076, 1195847965316075⟩ 7 25 5 5 =
      some ('7' :: List.replicate 18 '0') ∧
    ¬(1 ≤ 7 ∧ 7 ≤ 7 - 1) := by
  refine ⟨by decide, by decide, by decide, by decide, by decide, by decide, by decide⟩

/-!  Characterization of the two scale loops. -/

lemma scale_up_spec (B : ℕ) (ho : Bool) (rmp : ℕ) :
    ∀ (fu s k0 s1 k1 : ℕ), scale_up B ho rmp fu s k0 = some (s1, k1) →
      ∃ m : ℕ, k1 = k0 + m ∧ s1 = s * B ^ m ∧
        scale_up_cond ho rmp s1 = false ∧
        (1 ≤ m → scale_up_cond ho rmp (s * B ^ (m - 1)) = true) := by
  intro fu
  induction fu with
  | zero => intro s k0 s1 k1 h; simp [scale_up] at h
  | succ n ih =>
    intro s k0 s1 k1 h
    rw [scale_up] at h
    by_cases hc : scale_up_cond ho rmp s
    · rw [if_pos hc] at h
      obtain ⟨m, hk, hsx, hexit, hlast⟩ := ih (s * B) (k0 + 1) s1 k1 h
      refine ⟨m + 1, by omega, by rw [hsx]; ring, hexit, ?_⟩
      intro _
      rcases m with _ | m1
      · simpa using hc
      · have h2 := hlast (by omega)
        have harr : s * B * B ^ (m1 + 1 - 1) = s * B ^ (m1 + 1 + 1 - 1) := by
          simp only [Nat.add_sub_cancel]
          ring
        rw [harr] at h2
        exact h2
    · rw [if_neg hc] at h
      simp only [Option.some.injEq, Prod.mk.injEq] at h
      obtain ⟨rfl, rfl⟩ := h
      refine ⟨0, by omega, by ring, by simpa using hc, ?_⟩
      intro hcon
      omega

lemma scale_down_spec (B : ℕ) (ho : Bool) (s : ℕ) :
    ∀ (fd r mp mm : ℕ) (k0 : ℤ) (r1 mp1 mm1 : ℕ) (k1 : ℤ),
      scale_down B ho s fd r mp mm k0 = some (r1, mp1, mm1, k1) →
      ∃ m : ℕ, k1 = k0 - m ∧ r1 = r * B ^ m ∧ mp1 = mp * B ^ m ∧
        mm1 = mm * B ^ m ∧
        scale_down_cond ho ((r1 + mp1) * B) s = false ∧
        (1 ≤ m → scale_down_cond ho ((r + mp) * B ^ m) s = true) := by
  intro fd
  induction fd with
  | zero => intro r mp mm k0 r1 mp1 mm1 k1 h; simp [scale_down] at h
  | succ n ih =>
    intro r mp mm k0 r1 mp1 mm1 k1 h
    rw [scale_down] at h
    by_cases hc : scale_down_cond ho ((r + mp) * B) s
    · rw [if_pos hc] at h
      obtain ⟨m, hk, hr1, hmp1, hmm1, hexit, hlast⟩ :=
        ih (r * B) (mp * B) (mm * B) (k0 - 1) r1 mp1 mm1 k1 h
      refine ⟨m + 1, by omega, by rw [hr1]; ring, by rw [hmp1]; ring,
        by rw [hmm1]; ring, hexit, ?_⟩
      intro _
      rcases m with _ | m1
      · simpa using hc
      · have h2 := hlast (by omega)
        have harr : (r * B + mp * B) * B ^ (m1 + 1) = (r + mp) * B ^ (m1 + 1 + 1) := by
          ring
        rw [harr] at h2
        exact h2
    · rw [if_neg hc] at h
      simp only [Option.some.injEq, Prod.mk.injEq] at h
      obtain ⟨rfl, rfl, rfl, rfl⟩ := h
      refine ⟨0, by omega, by ring, by ring, by ring, by simpa using hc, ?_⟩
      intro hcon
      omega

/-!  Moving rational bounds across negative powers of the radix. -/

lemma zpow_neg_mul_le_iff (B : ℚ) (hB : 0 < B) (m : ℕ) (s a : ℚ) :
    B ^ (-(m : ℤ)) * s ≤ a ↔ s ≤ a * B ^ m := by
  rw [zpow_neg, zpow_natCast, inv_mul_eq_div]
  exact div_le_iff₀ (pow_pos hB m)

lemma zpow_neg_mul_lt_iff (B : ℚ) (hB : 0 < B) (m : ℕ) (s a : ℚ) :
    B ^ (-(m : ℤ)) * s < a ↔ s < a * B ^ m := by
  rw [zpow_neg, zpow_natCast, inv_mul_eq_div]
  exact div_lt_iff₀ (pow_pos hB m)

lemma lt_zpow_neg_mul_iff (B : ℚ) (hB : 0 < B) (m : ℕ) (s a : ℚ) :
    a < B ^ (-(m : ℤ)) * s ↔ a * B ^ m < s := by
  rw [zpow_neg, zpow_natCast, inv_mul_eq_div]
  exact lt_div_iff₀ (pow_pos hB m)

lemma le_zpow_neg_mul_iff (B : ℚ) (hB : 0 < B) (m : ℕ) (s a : ℚ) :
    a ≤ B ^ (-(m : ℤ)) * s ↔ a * B ^ m ≤ s := by
  rw [zpow_neg, zpow_natCast, inv_mul_eq_div]
  exact le_div_iff₀ (pow_pos hB m)

/-- C4 (amended): after the scale step completes with result k, the
PRE-scale values r, s, m+ satisfy B^(k-1) * s ≤ r + m+ < B^k * s, with
the left comparison non-strict and the right strict when high_ok is set,
and the left strict and the right non-strict when it is clear.  (The claim
as stated, with the post-scale values, fails: see the counterexample.) -/
theorem scale_postcond_prescale (B : ℕ) (ho : Bool) (fu fd r s mp mm : ℕ)
    (r1 s1 mp1 mm1 : ℕ) (k : ℤ) (hB : 2 ≤ B) (hs : 1 ≤ s)
    (h : dragon4_scale B ho fu fd r s mp mm = some (r1, s1, mp1, mm1, k)) :
    if ho then
      (B : ℚ) ^ (k - 1) * s ≤ (r : ℚ) + mp ∧ (r : ℚ) + mp < (B : ℚ) ^ k * s
    else
      (B : ℚ) ^ (k - 1) * s < (r : ℚ) + mp ∧ (r : ℚ) + mp ≤ (B : ℚ) ^ k * s := by
  have hBQ : (0 : ℚ) < B := by exact_mod_cast (by omega : 0 < B)
  rw [dragon4_scale] at h
  rcases hup : scale_up B ho (r + mp) fu s 0 with _ | ⟨s2, k2⟩ <;> rw [hup] at h
  · cases h
  obtain ⟨m, hk2, hs2, hexit, hlast⟩ := scale_up_spec B ho (r + mp) fu s 0 s2 k2 hup
  rw [Nat.zero_add] at hk2
  rw [hk2] at h
  simp only at h
  by_cases hkpos : 0 < m
  · rw [if_pos hkpos] at h
    simp only [Option.some.injEq, Prod.mk.injEq] at h
    obtain ⟨rfl, rfl, rfl, rfl, rfl⟩ := h
    have hm1 : ((m : ℤ)) - 1 = ((m - 1 : ℕ) : ℤ) := by omega
    cases ho with
    | true =>
      simp only [scale_up_cond, if_true, decide_eq_false_iff_not] at hexit
      have hlb : s * B ^ (m - 1) ≤ r + mp := by
        simpa [scale_up_cond] using hlast hkpos
      have hub : r + mp < s * B ^ m := by rw [hs2] at hexit; omega
      simp only [if_true]
      constructor
      · rw [hm1, zpow_natCast]
        calc (B : ℚ) ^ (m - 1) * s = ((s * B ^ (m - 1) : ℕ) : ℚ) := by
              push_cast; ring
        _ ≤ ((r + mp : ℕ) : ℚ) := by exact_mod_cast hlb
        _ = (r : ℚ) + mp := by push_cast; ring
      · rw [zpow_natCast]
        calc (r : ℚ) + mp = ((r + mp : ℕ) : ℚ) := by push_cast; ring
        _ < ((s * B ^ m : ℕ) : ℚ) := by exact_mod_cast hub
        _ = (B : ℚ) ^ m * s := by push_cast; ring
    | false =>
      simp [scale_up_cond] at hexit
      have hlast1 := hlast hkpos
      simp [scale_up_cond] at hlast1
      rw [hs2] at hexit
      have hlb : s * B ^ (m - 1) + 1 ≤ r + mp := by omega
      have hub : r + mp ≤ s * B ^ m := by omega
      simp only [Bool.false_eq_true, if_false]
      constructor
      · rw [hm1, zpow_natCast]
        calc (B : ℚ) ^ (m - 1) * s = ((s * B ^ (m - 1) : ℕ) : ℚ) := by
              push_cast; ring
        _ < ((r + mp : ℕ) : ℚ) := by exact_mod_cast (by omega : s * B ^ (m - 1) < r + mp)
        _ = (r : ℚ) + mp := by push_cast; ring
      · rw [zpow_natCast]
        calc (r : ℚ) + mp = ((r + mp : ℕ) : ℚ) := by push_cast; ring
        _ ≤ ((s * B ^ m : ℕ) : ℚ) := by exact_mod_cast hub
        _ = (B : ℚ) ^ m * s := by push_cast; ring
  · rw [if_neg hkpos] at h
    have hm0 : m = 0 := by omega
    subst hm0
    rw [pow_zero, mul_one] at hs2
    subst hs2
    rcases hdn : scale_down B ho s2 fd r mp mm 0 with _ | ⟨r2, mp2, mm2, kd⟩ <;>
      rw [hdn] at h
    · cases h
    simp only [Option.some.injEq, Prod.mk.injEq] at h
    obtain ⟨rfl, rfl, rfl, rfl, rfl⟩ := h
    obtain ⟨m1, hkd, hr2, hmp2, hmm2, hexit2, hlast2⟩ :=
      scale_down_spec B ho s2 fd r mp mm 0 r2 mp2 mm2 kd hdn
    have hkd1 : kd = -((m1 : ℕ) : ℤ) := by omega
    have hkdm : kd - 1 = -(((m1 + 1 : ℕ)) : ℤ) := by push_cast; omega
    have hsum : (r2 + mp2) * B = (r + mp) * B ^ (m1 + 1) := by
      rw [hr2, hmp2]; ring
    cases ho with
    | true =>
      simp only [scale_down_cond, if_true, decide_eq_false_iff_not] at hexit2
      rw [hsum] at hexit2
      simp only [if_true]
      have hub : (r + mp) * B ^ m1 < s2 := by
        rcases Nat.eq_zero_or_pos m1 with hm1 | hm1
        · subst hm1
          simp only [scale_up_cond, if_true, decide_eq_false_iff_not] at hexit
          simpa using hexit
        · have := hlast2 hm1
          simp only [scale_down_cond, if_true, decide_eq_true_eq] at this
          omega
      have hlb : s2 ≤ (r + mp) * B ^ (m1 + 1) := by omega
      constructor
      · rw [hkdm, zpow_neg_mul_le_iff (B : ℚ) hBQ (m1 + 1)]
        calc (s2 : ℚ) ≤ (((r + mp) * B ^ (m1 + 1) : ℕ) : ℚ) := by exact_mod_cast hlb
        _ = ((r : ℚ) + mp) * (B : ℚ) ^ (m1 + 1) := by push_cast; ring
      · rw [hkd1, lt_zpow_neg_mul_iff (B : ℚ) hBQ m1]
        calc ((r : ℚ) + mp) * (B : ℚ) ^ m1 = (((r + mp) * B ^ m1 : ℕ) : ℚ) := by
              push_cast; ring
        _ < (s2 : ℚ) := by exact_mod_cast hub
    | false =>
      simp [scale_down_cond] at hexit2
      rw [hsum] at hexit2
      simp only [Bool.false_eq_true, if_false]
      have hub : (r + mp) * B ^ m1 ≤ s2 := by
        rcases Nat.eq_zero_or_pos m1 with hm1 | hm1
        · subst hm1
          simp [scale_up_cond] at hexit
          simpa using Nat.lt_succ_iff.mp hexit
        · have hla := hlast2 hm1
          simp [scale_down_cond] at hla
          omega
      have hlb : s2 < (r + mp) * B ^ (m1 + 1) := by omega
      constructor
      · rw [hkdm, zpow_neg_mul_lt_iff (B : ℚ) hBQ (m1 + 1)]
        calc (s2 : ℚ) < (((r + mp) * B ^ (m1 + 1) : ℕ) : ℚ) := by exact_mod_cast hlb
        _ = ((r : ℚ) + mp) * (B : ℚ) ^ (m1 + 1) := by push_cast; ring
      · rw [hkd1, le_zpow_neg_mul_iff (B : ℚ) hBQ m1]
        calc ((r : ℚ) + mp) * (B : ℚ) ^ m1 = (((r + mp) * B ^ m1 : ℕ) : ℚ) := by
              push_cast; ring
        _ ≤ (s2 : ℚ) := by exact_mod_cast hub

/-- C4 counterexample: for the input 4.0 (f = 2^52, e = -50, both flags
set) at radix 10, Scale returns k = 1 with post-scale state r = 2^54,
s = 10 * 2^52, m+ = 2; the claimed bound on the post-scale values,
B^(k-1) * s ≤ r + m+, fails there (45035996273704960 > 18014398509481986).
The bound holds for the pre-scale values instead. -/
theorem scale_postcond_post_counterexample :
    dragon4_prepare (2 ^ 52) (-50) = (2 ^ 54, 2 ^ 52, 2, 1) ∧
    prepare_round_ok (2 ^ 52) = true ∧
    dragon4_scale 10 true 30 30 (2 ^ 54) (2 ^ 52) 2 1 =
      some (2 ^ 54, 10 * 2 ^ 52, 2, 1, 1) ∧
    ¬(10 ^ (1 - 1) * (10 * 2 ^ 52) ≤ 2 ^ 54 + 2) := by
  refine ⟨by decide, by decide, by decide, by decide⟩

/-- C4 witness: the pre-scale bound theorem instantiated on a concrete
run (B = 10, high_ok set, r = 5, s = 1, m+ = m- = 1, giving k = 1). -/
theorem scale_postcond_prescale_witness :
    (2 ≤ 10 ∧ 1 ≤ 1 ∧
      dragon4_scale 10 true 10 10 5 1 1 1 = some (5, 10, 1, 1, 1)) ∧
    ((10 : ℚ) ^ ((1 : ℤ) - 1) * 1 ≤ (5 : ℚ) + 1 ∧
      (5 : ℚ) + 1 < (10 : ℚ) ^ (1 : ℤ) * 1) := by
  refine ⟨⟨by decide, by decide, by decide⟩, ?_⟩
  have h := scale_postcond_prescale 10 true 10 10 5 1 1 1 5 10 1 1 1
    (by decide) (by decide) (by decide)
  simpa using h

/-!  Termination of the scale and generate loops. -/

lemma scale_up_term (B : ℕ) (ho : Bool) (rmp : ℕ) (hB : 2 ≤ B) :
    ∀ (n s k0 : ℕ), 1 ≤ s → rmp + 1 ≤ s + n →
      (scale_up B ho rmp (n + 1) s k0).isSome := by
  intro n
  induction n with
  | zero =>
    intro s k0 hs hle
    rw [scale_up]
    have hc : scale_up_cond ho rmp s = false := by
      cases ho <;> simp [scale_up_cond] <;> omega
    rw [hc]
    simp
  | succ n ih =>
    intro s k0 hs hle
    rw [scale_up]
    by_cases hc : scale_up_cond ho rmp s
    · rw [if_pos hc]
      have hsB : s + 1 ≤ s * B := by
        have h2 : s * 2 ≤ s * B := Nat.mul_le_mul_left s hB
        omega
      exact ih (s * B) (k0 + 1) (by omega) (by omega)
    · rw [if_neg hc]
      simp

lemma scale_down_term (B : ℕ) (ho : Bool) (s : ℕ) (hB : 2 ≤ B) :
    ∀ (n r mp mm : ℕ) (k0 : ℤ), s < (r + mp) * B ^ n →
      (scale_down B ho s (n + 1) r mp mm k0).isSome := by
  intro n
  induction n with
  | zero =>
    intro r mp mm k0 hlt
    rw [scale_down]
    simp only [pow_zero, mul_one] at hlt
    have hle : r + mp ≤ (r + mp) * B := by
      have h2 : (r + mp) * 1 ≤ (r + mp) * B := Nat.mul_le_mul_left _ (by omega)
      omega
    have hc : scale_down_cond ho ((r + mp) * B) s = false := by
      cases ho <;> simp [scale_down_cond] <;> omega
    rw [hc]
    simp
  | succ n ih =>
    intro r mp mm k0 hlt
    rw [scale_down]
    by_cases hc : scale_down_cond ho ((r + mp) * B) s
    · rw [if_pos hc]
      apply ih (r * B) (mp * B) (mm * B) (k0 - 1)
      have harr : (r * B + mp * B) * B ^ n = (r + mp) * B ^ (n + 1) := by ring
      rw [harr]
      exact hlt
    · rw [if_neg hc]
      simp

lemma generate_term (B : ℕ) (lo ho : Bool) (s : ℕ) (hB : 2 ≤ B) (hs : 0 < s) :
    ∀ (n r mp mm : ℕ), r < s → s ≤ mm * B ^ n →
      (dragon4_generate B lo ho s (n + 1) r mp mm).isSome := by
  intro n
  induction n with
  | zero =>
    intro r mp mm hr hsm
    rw [dragon4_generate_succ B lo ho s hs]
    have hr1 : r * B % s < s := Nat.mod_lt _ hs
    simp only [pow_zero, mul_one] at hsm
    have hmmB : mm ≤ mm * B := by
      have h2 : mm * 1 ≤ mm * B := Nat.mul_le_mul_left _ (by omega)
      omega
    have hc1 : generate_tc1 lo (r * B % s) (mm * B) = true := by
      cases lo <;> simp [generate_tc1] <;> omega
    rw [hc1]
    by_cases h2 : generate_tc2 ho (r * B % s) (mp * B) s
    · rw [if_pos rfl, if_pos h2]
      split <;> simp
    · rw [if_pos rfl, if_neg h2]
      simp
  | succ n ih =>
    intro r mp mm hr hsm
    rw [dragon4_generate_succ B lo ho s hs]
    have hr1 : r * B % s < s := Nat.mod_lt _ hs
    by_cases hc1 : generate_tc1 lo (r * B % s) (mm * B)
    · rw [if_pos hc1]
      by_cases h2 : generate_tc2 ho (r * B % s) (mp * B) s
      · rw [if_pos h2]
        split <;> simp
      · rw [if_neg h2]
        simp
    · rw [if_neg hc1]
      by_cases h2 : generate_tc2 ho (r * B % s) (mp * B) s
      · rw [if_pos h2]
        simp
      · rw [if_neg h2]
        have hnext : s ≤ mm * B * B ^ n := by
          have harr : mm * B * B ^ n = mm * B ^ (n + 1) := by ring
          rw [harr]
          exact hsm
        have hrec := ih (r * B % s) (mp * B) (mm * B) hr1 hnext
        rcases Option.isSome_iff_exists.1 hrec with ⟨ds, hds⟩
        rw [hds]
        simp

/-!  Bounds provided by setup, and the generate precondition established
by scale. -/

lemma dragon4_prepare_bounds (f : ℕ) (e : ℤ) :
    1 ≤ (dragon4_prepare f e).2.1 ∧ 1 ≤ (dragon4_prepare f e).2.2.1 ∧
      1 ≤ (dragon4_prepare f e).2.2.2 := by
  unfold dragon4_prepare
  split
  · split
    · exact ⟨show (1 : ℕ) ≤ 4 by decide, Nat.one_le_two_pow, Nat.one_le_two_pow⟩
    · exact ⟨show (1 : ℕ) ≤ 2 by decide, Nat.one_le_two_pow, Nat.one_le_two_pow⟩
  · split
    · exact ⟨Nat.one_le_two_pow, show (1 : ℕ) ≤ 2 by decide,
        show (1 : ℕ) ≤ 1 by decide⟩
    · exact ⟨Nat.one_le_two_pow, show (1 : ℕ) ≤ 1 by decide,
        show (1 : ℕ) ≤ 1 by decide⟩

lemma dragon4_scale_post (B : ℕ) (ho : Bool) (fu fd r s mp mm r1 s1 mp1 mm1 : ℕ)
    (k : ℤ) (hB : 2 ≤ B) (hmp : 1 ≤ mp) (hmm : 1 ≤ mm) (hs : 1 ≤ s)
    (h : dragon4_scale B ho fu fd r s mp mm = some (r1, s1, mp1, mm1, k)) :
    r1 < s1 ∧ 1 ≤ mm1 ∧ 1 ≤ s1 := by
  have hBp : ∀ j : ℕ, 1 ≤ B ^ j := fun j => Nat.one_le_pow j B (by omega)
  rw [dragon4_scale] at h
  rcases hup : scale_up B ho (r + mp) fu s 0 with _ | ⟨s2, k2⟩ <;> rw [hup] at h
  · cases h
  obtain ⟨m, hk2, hs2, hexit, hlast⟩ := scale_up_spec B ho (r + mp) fu s 0 s2 k2 hup
  rw [Nat.zero_add] at hk2
  rw [hk2] at h
  simp only at h
  have hexlt : r + mp ≤ s2 := by
    cases ho <;> simp [scale_up_cond] at hexit <;> omega
  by_cases hkpos : 0 < m
  · rw [if_pos hkpos] at h
    simp only [Option.some.injEq, Prod.mk.injEq] at h
    obtain ⟨rfl, rfl, rfl, rfl, rfl⟩ := h
    exact ⟨by omega, hmm, by omega⟩
  · rw [if_neg hkpos] at h
    have hm0 : m = 0 := by omega
    subst hm0
    rw [pow_zero, mul_one] at hs2
    rcases hdn : scale_down B ho s2 fd r mp mm 0 with _ | ⟨r2, mp2, mm2, kd⟩ <;>
      rw [hdn] at h
    · cases h
    simp only [Option.some.injEq, Prod.mk.injEq] at h
    obtain ⟨rfl, rfl, rfl, rfl, rfl⟩ := h
    obtain ⟨m1, hkd, hr2, hmp2, hmm2, hexit2, hlast2⟩ :=
      scale_down_spec B ho s2 fd r mp mm 0 r2 mp2 mm2 kd hdn
    refine ⟨?_, ?_, by omega⟩
    · rcases Nat.eq_zero_or_pos m1 with hm1 | hm1
      · subst hm1
        simp only [pow_zero, mul_one] at hr2 hmp2
        subst hr2
        omega
      · have hla := hlast2 hm1
        have hmp2ge : 1 ≤ mp2 := by
          rw [hmp2]
          exact Nat.mul_le_mul hmp (hBp m1)
        have hsum2 : r2 + mp2 = (r + mp) * B ^ m1 := by rw [hr2, hmp2]; ring
        cases ho <;> simp [scale_down_cond] at hla <;> omega
    · rw [hmm2]
      exact Nat.mul_le_mul hmm (hBp m1)

/-- C9: for every decomposed positive input (f, e) and radix B with
2 ≤ B, the scale loop pair and the generate loop (with its inner
subtraction loop) all terminate: there are fuel values for which the
composed scale-and-generate pipeline started from the dragon4_prepare
state completes with a result. -/
theorem conversion_terminates (f B : ℕ) (e : ℤ) (hf : 1 ≤ f) (hB : 2 ≤ B) :
    ∃ fu fd fg res,
      dragon4_digits B (prepare_round_ok f) (prepare_round_ok f)
        (dragon4_prepare f e).1 (dragon4_prepare f e).2.1
        (dragon4_prepare f e).2.2.1 (dragon4_prepare f e).2.2.2 fu fd fg =
        some res := by
  obtain ⟨hs, hmp, hmm⟩ := dragon4_prepare_bounds f e
  set lo := prepare_round_ok f with hlo
  set r := (dragon4_prepare f e).1 with hrd
  set s := (dragon4_prepare f e).2.1 with hsd
  set mp := (dragon4_prepare f e).2.2.1 with hmpd
  set mm := (dragon4_prepare f e).2.2.2 with hmmd
  have hup : (scale_up B lo (r + mp) (r + mp + 1) s 0).isSome :=
    scale_up_term B lo (r + mp) hB (r + mp) s 0 hs (by omega)
  rcases Option.isSome_iff_exists.1 hup with ⟨⟨s2, k2⟩, hup2⟩
  have hsc : ∃ r1 s1 mp1 mm1 kk,
      dragon4_scale B lo (r + mp + 1) (s + 1) r s mp mm =
        some (r1, s1, mp1, mm1, kk) := by
    rw [dragon4_scale, hup2]
    simp only
    by_cases hk : 0 < k2
    · rw [if_pos hk]
      exact ⟨r, s2, mp, mm, (k2 : ℤ), rfl⟩
    · rw [if_neg hk]
      obtain ⟨m, hk2, hs2, hexit, hlast⟩ :=
        scale_up_spec B lo (r + mp) (r + mp + 1) s 0 s2 k2 hup2
      have hm0 : m = 0 := by omega
      subst hm0
      rw [pow_zero, mul_one] at hs2
      have hdn : (scale_down B lo s2 (s + 1) r mp mm 0).isSome := by
        rw [hs2]
        apply scale_down_term B lo s hB s r mp mm 0
        have h1 : s < 2 ^ s := Nat.lt_two_pow s
        have h2 : 2 ^ s ≤ B ^ s := Nat.pow_le_pow_left hB s
        have h3 : 1 * B ^ s ≤ (r + mp) * B ^ s :=
          Nat.mul_le_mul_right _ (by omega)
        omega
      rcases Option.isSome_iff_exists.1 hdn with ⟨⟨r2, mp2, mm2, kd⟩, hdn2⟩
      rw [hdn2]
      exact ⟨r2, s2, mp2, mm2, kd, rfl⟩
  obtain ⟨r1, s1, mp1, mm1, kk, hscale⟩ := hsc
  obtain ⟨hrs, hmm1, hs1⟩ :=
    dragon4_scale_post B lo (r + mp + 1) (s + 1) r s mp mm r1 s1 mp1 mm1 kk
      hB hmp hmm hs hscale
  have hgen : (dragon4_generate B lo lo s1 (s1 + 1) r1 mp1 mm1).isSome := by
    apply generate_term B lo lo s1 hB (by omega) s1 r1 mp1 mm1 hrs
    have h1 : s1 < 2 ^ s1 := Nat.lt_two_pow s1
    have h2 : 2 ^ s1 ≤ B ^ s1 := Nat.pow_le_pow_left hB s1
    have h3 : 1 * B ^ s1 ≤ mm1 * B ^ s1 := Nat.mul_le_mul_right _ hmm1
    omega
  rcases Option.isSome_iff_exists.1 hgen with ⟨ds, hds⟩
  refine ⟨r + mp + 1, s + 1, s1 + 1, (ds, kk), ?_⟩
  rw [dragon4_digits, hscale]
  simp [hds]

/-- C9 witness: the termination theorem instantiated at f = 1, e = 0,
radix 10. -/
theorem conversion_terminates_witness :
    1 ≤ 1 ∧ 2 ≤ 10 ∧
    ∃ fu fd fg res,
      dragon4_digits 10 (prepare_round_ok 1) (prepare_round_ok 1)
        (dragon4_prepare 1 0).1 (dragon4_prepare 1 0).2.1
        (dragon4_prepare 1 0).2.2.1 (dragon4_prepare 1 0).2.2.2 fu fd fg =
        some res :=
  ⟨by decide, by decide, conversion_terminates 1 10 0 (by decide) (by decide)⟩

/-- C7: for every radix in [2, 36] the dispatcher renders the special
values as fixed literals rather than errors: NaN of either sign bit gives
"NaN", positive infinity gives "Infinity", negative infinity gives
"-Infinity", and both zeros give "0" with the sign of zero dropped. -/
theorem stringify_special_values (radix fu fd fg : ℕ) (sb : Bool) (fr : ℕ)
    (h2 : 2 ≤ radix) (h36 : radix ≤ 36) (hfr : fr ≠ 0) :
    duk_numconv_stringify ⟨sb, 2047, fr⟩ radix fu fd fg = some lit_nan ∧
    duk_numconv_stringify ⟨false, 2047, 0⟩ radix fu fd fg = some lit_infinity ∧
    duk_numconv_stringify ⟨true, 2047, 0⟩ radix fu fd fg =
      some lit_minus_infinity ∧
    duk_numconv_stringify ⟨false, 0, 0⟩ radix fu fd fg = some lit_zero ∧
    duk_numconv_stringify ⟨true, 0, 0⟩ radix fu fd fg = some lit_zero := by
  refine ⟨?_, ?_, ?_, ?_, ?_⟩ <;>
    simp [duk_numconv_stringify, isNaN, isInf, isZero, hfr]

/-- C7 witness: the special-value theorem instantiated at radix 16 with a
negative-sign NaN payload of 1. -/
theorem stringify_special_values_witness :
    (2 ≤ 16 ∧ 16 ≤ 36 ∧ (1 : ℕ) ≠ 0) ∧
    (duk_numconv_stringify ⟨true, 2047, 1⟩ 16 0 0 0 = some lit_nan ∧
     duk_numconv_stringify ⟨false, 2047, 0⟩ 16 0 0 0 = some lit_infinity ∧
     duk_numconv_stringify ⟨true, 2047, 0⟩ 16 0 0 0 =
       some lit_minus_infinity ∧
     duk_numconv_stringify ⟨false, 0, 0⟩ 16 0 0 0 = some lit_zero ∧
     duk_numconv_stringify ⟨true, 0, 0⟩ 16 0 0 0 = some lit_zero) :=
  ⟨⟨by decide, by decide, by decide⟩,
    stringify_special_values 16 0 0 0 true 1 (by decide) (by decide) (by decide)⟩

/-- C8: when the radix is 10 and the absolute value of the finite nonzero
input equals its unsigned 32-bit truncation exactly (an integer below
2^32), stringify takes the fast path: the output is the standard decimal
rendering of that integer preceded by a minus sign exactly when the input
is negative.  The conclusion holds for every fuel value, including zero
fuel, at which the Dragon4 pipeline could only return none - so the
Dragon4 pipeline is not run on this path. -/
theorem stringify_fast_path (x : DoubleRep) (fu fd fg : ℕ)
    (hnan : isNaN x = false) (hinf : isInf x = false) (hzero : isZero x = false)
    (hint : (⌊absValue x⌋ : ℚ) = absValue x) (hrange : ⌊absValue x⌋ < 2 ^ 32) :
    duk_numconv_stringify x 10 fu fd fg =
      some ((if x.sign then ['-'] else []) ++ uintDecimal ⌊absValue x⌋.toNat) := by
  rw [duk_numconv_stringify]
  simp only [hnan, hinf, hzero, Bool.false_eq_true, if_false]
  rw [if_pos ⟨trivial, hint, hrange⟩]

/-- C8 witness: the fast-path theorem instantiated on -42.0
(sign set, biased exponent field 1028, fraction field 10 * 2^47), whose
absolute value is exactly the integer 42; the output is "-42". -/
theorem stringify_fast_path_witness :
    duk_numconv_stringify ⟨true, 1028, 1407374883553280⟩ 10 0 0 0 =
      some ('-' :: uintDecimal 42) := by
  have hv : absValue ⟨true, 1028, 1407374883553280⟩ = 42 := by
    norm_num [absValue]
  have hfl : ⌊absValue ⟨true, 1028, 1407374883553280⟩⌋ = 42 := by
    rw [hv, show (42 : ℚ) = ((42 : ℤ) : ℚ) by norm_num, Int.floor_intCast]
  have h := stringify_fast_path ⟨true, 1028, 1407374883553280⟩ 0 0 0
    (by decide) (by decide) (by decide)
    (by rw [hfl, hv]; norm_num) (by rw [hfl]; decide)
  rw [hfl] at h
  simpa using h

end DukNumconv
